import Mathlib

/-!
Verification development for the uncss usage-analysis engine (`lib/lib.js`).

The JavaScript source is shallowly embedded:
* a DOM snapshot is its one capability, `query : String → Option Nat`
  (`none` models the query throwing on unsupported selector syntax,
  `some n` a NodeSet of size `n`);
* an ignore entry is a tagged value, a literal string or a RegExp modelled
  by its `test` function;
* JavaScript exceptions escaping a function are modelled with `Except Unit`;
* the regex scans of the pseudo-selector normalizer are implemented
  character by character; recursions that are not structural carry a fuel
  argument initialised with the length (or `sizeOf`) of the scanned input,
  which is sufficient because every recursive step consumes at least one
  character or node (stability under the fuel is proved below).
-/

/-- ASCII whitespace of the JavaScript `\s` class used by
`/(?:[^\s"]+|"[^"]*")+/g` (the selectors handled here are ASCII). -/
def isSpaceJS (c : Char) : Bool :=
  c == ' ' || c == '\t' || c == '\n' || c == '\r' || c == '\x0b' || c == '\x0c'

/-- Characters excluded by `[^ :"]` in `/(?:[^ :"]+|"[^"]*")+/g`, quote apart. -/
def innerBad (c : Char) : Bool :=
  c == ' ' || c == ':'

/-- Scan of `[^"]*"`: the input starts right after an opening quote; returns
the consumed characters (closing quote included) and the remainder, or `none`
when no closing quote exists. -/
def scanQuoted : List Char → Option (List Char × List Char)
  | [] => none
  | c :: cs =>
    if c = '"' then some ([c], cs)
    else
      match scanQuoted cs with
      | none => none
      | some (q, rest) => some (c :: q, rest)

/-- Maximal run of characters that are neither `"` nor rejected by `bad`
(the `[^\s"]+` / `[^ :"]+` alternative of the token regexes). -/
def grabRun (bad : Char → Bool) : List Char → List Char × List Char
  | [] => ([], [])
  | c :: cs =>
    if bad c || c = '"' then ([], c :: cs)
    else (c :: (grabRun bad cs).1, (grabRun bad cs).2)

/-- One unit of the token regexes `(?:[^X"]+|"[^"]*")+`: either a nonempty
plain run or one quoted substring; `none` when neither matches here. -/
def matchUnit (bad : Char → Bool) : List Char → Option (List Char × List Char)
  | [] => none
  | c :: cs =>
    if c = '"' then
      match scanQuoted cs with
      | none => none
      | some (q, rest) => some ('"' :: q, rest)
    else if bad c then none
    else some (c :: (grabRun bad cs).1, (grabRun bad cs).2)

/-- Greedy `(unit)+` tail: repeats `matchUnit` while it matches.  Fueled;
each successful unit consumes at least one character, so fuel equal to the
input length is enough. -/
def unitsStarF (bad : Char → Bool) : Nat → List Char → List Char × List Char
  | 0, l => ([], l)
  | fuel + 1, l =>
    match matchUnit bad l with
    | none => ([], l)
    | some (u, rest) =>
      (u ++ (unitsStarF bad fuel rest).1, (unitsStarF bad fuel rest).2)

/-- All matches of `(?:[^X"]+|"[^"]*")+` over the input, in order — the
semantics of JavaScript `str.match(regex-with-g)` (with `[]` standing for
the `null` result).  Fueled like `unitsStarF`. -/
def allMatchesF (bad : Char → Bool) : Nat → List Char → List (List Char)
  | 0, _ => []
  | _, [] => []
  | fuel + 1, c :: cs =>
    match matchUnit bad (c :: cs) with
    | none => allMatchesF bad fuel cs
    | some (u, rest) =>
      (u ++ (unitsStarF bad fuel rest).1) ::
        allMatchesF bad fuel (unitsStarF bad fuel rest).2

/-- Scan of the lazy `.*?\*\//` part of `/\/\*.*?\*\//`: consumed characters
up to and including the first `*/`, failing on a line break (JavaScript `.`
does not match one) or at the end of the input. -/
def closeScan : List Char → Option (List Char × List Char)
  | '*' :: '/' :: cs => some (['*', '/'], cs)
  | '\n' :: _ => none
  | '\r' :: _ => none
  | c :: cs =>
    match closeScan cs with
    | none => none
    | some (q, rest) => some (c :: q, rest)
  | [] => none

/-- Match of `/\/\*.*?\*\//` anchored at the head of the input. -/
def matchCommentAt : List Char → Option (List Char × List Char)
  | '/' :: '*' :: cs =>
    match closeScan cs with
    | none => none
    | some (q, rest) => some ('/' :: '*' :: q, rest)
  | _ => none

/-- `selector.replace(/\/\*.*?\*\//)`: the replacement argument is absent in
the source, so JavaScript replaces the first comment with the string
`"undefined"`; later comments are left in place (the regex has no `g` flag). -/
def replaceComment : List Char → List Char
  | [] => []
  | c :: cs =>
    match matchCommentAt (c :: cs) with
    | some (_, rest) => "undefined".data ++ rest
    | none => c :: replaceComment cs

/-- `str.match(/(?:[^ :"]+|"[^"]*")+/g)[0]`: first match of the inner token
regex; `none` models the TypeError thrown by `null[0]` when there is no
match. -/
def tokenTrunc (t : List Char) : Option (List Char) :=
  (allMatchesF innerBad t.length t).head?

/-- The pseudo-selector normalization expression of `filterUnusedSelectors`
(`lib.js` lines 136–147): comment replacement, whitespace tokenization with
quoted substrings atomic, per-token truncation, re-join with single spaces.
`none` models a TypeError escaping (`null.map` when tokenization finds
nothing, `null[0]` when a token has no inner match). -/
def normalizeSelector (sel : String) : Option String :=
  let s1 := replaceComment sel.data
  let toks := allMatchesF isSpaceJS s1.length s1
  if toks.isEmpty then none
  else
    match toks.mapM tokenTrunc with
    | none => none
    | some ts => some (String.intercalate " " (ts.map String.mk))

/-- A DOM snapshot: its one capability `query(selector) → NodeSet`, exposed
as the size of the result; `none` models the query throwing. -/
def Dom : Type := String → Option Nat

/-- One entry of the ignore list: a literal selector string or a RegExp
modelled by its `test` function. -/
inductive IgnoreEntry where
  | lit (s : String) : IgnoreEntry
  | pattern (test : String → Bool) : IgnoreEntry

/-- Outcome of processing one DOM snapshot inside the selector loop of
`filterUnusedSelectors` (lines 130–159). -/
inductive DomStep where
  | used : DomStep
  | unused : DomStep
  | thrown : DomStep
deriving DecidableEq

/-- One iteration of the DOM loop: try the raw query; on a throw, compute the
normalized form (whose failure is the escaping TypeError, `thrown`) and retry;
if the retry throws too, gracefully give up and count the selector as used. -/
def domStep (d : Dom) (sel : String) : DomStep :=
  match d sel with
  | some n => if n == 0 then DomStep.unused else DomStep.used
  | none =>
    match normalizeSelector sel with
    | none => DomStep.thrown
    | some temp =>
      match d temp with
      | none => DomStep.used
      | some n => if n == 0 then DomStep.unused else DomStep.used

/-- The `for (i = 0; i < doms.length; ++i)` loop: first `used` snapshot
returns true, `thrown` propagates the exception, exhaustion returns false. -/
def selectorUsed (doms : List Dom) (sel : String) : Except Unit Bool :=
  match doms with
  | [] => Except.ok false
  | d :: ds =>
    match domStep d sel with
    | DomStep.used => Except.ok true
    | DomStep.unused => selectorUsed ds sel
    | DomStep.thrown => Except.error ()

/-- `selector[0] === '@'` (false on the empty string, where `selector[0]` is
`undefined`). -/
def firstCharAt (sel : String) : Bool :=
  sel.data.head? == some '@'

/-- `ignore.indexOf(selector) !== -1`: an entry equals the selector under
`===` only when it is a literal string equal to it (a RegExp entry never
does). -/
def ignoreLiteralMatch (ignore : List IgnoreEntry) (sel : String) : Bool :=
  ignore.any fun e =>
    match e with
    | IgnoreEntry.lit s => s == sel
    | IgnoreEntry.pattern _ => false

/-- The `for (j ...)` loop over `ignore`: some RegExp entry tests true. -/
def ignorePatternMatch (ignore : List IgnoreEntry) (sel : String) : Bool :=
  ignore.any fun e =>
    match e with
    | IgnoreEntry.lit _ => false
    | IgnoreEntry.pattern p => p sel

/-- The filter callback of `filterUnusedSelectors` (lines 112–160). -/
def selectorKeep (doms : List Dom) (ignore : List IgnoreEntry) (sel : String) :
    Except Unit Bool :=
  if firstCharAt sel then Except.ok true
  else if ignoreLiteralMatch ignore sel then Except.ok true
  else if ignorePatternMatch ignore sel then Except.ok true
  else selectorUsed doms sel

/-- `selectors.filter(callback)`: left-to-right, an exception from the
callback aborts the whole call. -/
def filterUnusedSelectors (doms : List Dom) (sels : List String)
    (ignore : List IgnoreEntry) : Except Unit (List String) :=
  match sels with
  | [] => Except.ok []
  | s :: rest =>
    match selectorKeep doms ignore s with
    | Except.error e => Except.error e
    | Except.ok true =>
      (filterUnusedSelectors doms rest ignore).map fun out => s :: out
    | Except.ok false => filterUnusedSelectors doms rest ignore

/-- A node of the stylesheet tree handed to `filterUnusedRules`: a `rule`
carries its selector strings and an opaque declaration payload, a `media`
block its condition string and nested rules; any other node type is opaque
and passed through untouched. -/
inductive RuleNode where
  | rule (selectors : List String) (decls : Nat) : RuleNode
  | media (condition : String) (rules : List RuleNode) : RuleNode
  | other (payload : Nat) : RuleNode

/-- The final `rules.filter(...)` predicate of `filterUnusedRules` (lines
194–204): drop rules left with no selectors and media blocks left with no
rules, keep everything else. -/
def keepNode : RuleNode → Bool
  | RuleNode.rule sels _ => !sels.isEmpty
  | RuleNode.media _ rs => !rs.isEmpty
  | RuleNode.other _ => true

/-- The `rules.forEach(...)` pass of `filterUnusedRules` (lines 180–192):
each `rule` node's selectors are replaced by their filtered list, each
`media` node's rules by the recursively pruned (transformed and filtered)
list.  This is also the state of the caller's rule nodes after the call,
since the source mutates each node in place (`rule.selectors = ...`,
`rule.rules = ...`). -/
def transformRules (doms : List Dom) (ignore : List IgnoreEntry) :
    List RuleNode → Except Unit (List RuleNode)
  | [] => Except.ok []
  | RuleNode.rule sels d :: rest =>
    match filterUnusedSelectors doms sels ignore with
    | Except.error e => Except.error e
    | Except.ok out =>
      (transformRules doms ignore rest).map fun ts =>
        RuleNode.rule out d :: ts
  | RuleNode.media cond rs :: rest =>
    match transformRules doms ignore rs with
    | Except.error e => Except.error e
    | Except.ok inner =>
      (transformRules doms ignore rest).map fun ts =>
        RuleNode.media cond (inner.filter keepNode) :: ts
  | RuleNode.other p :: rest =>
    (transformRules doms ignore rest).map fun ts =>
      RuleNode.other p :: ts

/-- `filterUnusedRules` (lines 171–206), at the level of the `rules` list:
the forEach transformation followed by the final filter. -/
def filterUnusedRules (doms : List Dom) (ignore : List IgnoreEntry)
    (rules : List RuleNode) : Except Unit (List RuleNode) :=
  (transformRules doms ignore rules).map fun ts => ts.filter keepNode

/-- Every selector string occurring in a tree (used to state when the
pruning traversal is free of escaping exceptions). -/
def rulesSelectors : List RuleNode → List String
  | [] => []
  | RuleNode.rule sels _ :: rest => sels ++ rulesSelectors rest
  | RuleNode.media _ rs :: rest => rulesSelectors rs ++ rulesSelectors rest
  | RuleNode.other _ :: rest => rulesSelectors rest

/-- Specification-side reading of §4.3 / C1: the selector matches at least
one element in the snapshot, directly or via its normalized form when the
direct query raises. -/
def domMatchesElem (d : Dom) (sel : String) : Prop :=
  (∃ n, d sel = some n ∧ n ≠ 0) ∨
    (d sel = none ∧
      ∃ t n, normalizeSelector sel = some t ∧ d t = some n ∧ n ≠ 0)

/-- Specification-side truncation at the first colon that is not inside a
double-quoted substring; the Boolean state records being inside quotes. -/
def truncSpecSt : Bool → List Char → List Char
  | _, [] => []
  | false, c :: cs =>
    if c = ':' then []
    else if c = '"' then c :: truncSpecSt true cs
    else c :: truncSpecSt false cs
  | true, c :: cs =>
    if c = '"' then c :: truncSpecSt false cs
    else c :: truncSpecSt true cs

/-- Well-formedness of a whitespace-token: double quotes balanced and no
space outside quotes (tokens produced by the outer tokenization satisfy
this); the Boolean state records being inside quotes. -/
def tokenWFSt : Bool → List Char → Bool
  | false, [] => true
  | true, [] => false
  | false, c :: cs =>
    if c = ' ' then false
    else if c = '"' then tokenWFSt true cs
    else tokenWFSt false cs
  | true, c :: cs =>
    if c = '"' then tokenWFSt false cs
    else tokenWFSt true cs

/-- A DOM snapshot whose query throws on every selector. -/
def domAlwaysThrow : Dom := fun _ => none

/-- A DOM snapshot with exactly one element matching `.a` and none other;
queries never throw. -/
def domHasDotA : Dom := fun s => if s == ".a" then some 1 else some 0

/-- A link (or other) element as seen by the stylesheet-link extraction
query: tag name, `rel` and `media` attributes (absent allowed), `href`. -/
structure Element where
  tag : String
  rel : Option String
  media : Option String
  href : String
deriving DecidableEq

/-- `_.union(['screen', 'all'], options.media)`: unique values, order of
first appearance. -/
def unionJS (a b : List String) : List String :=
  (a ++ b).foldl (fun acc x => if acc.contains x then acc else acc ++ [x]) []

/-- Semantics of the comma selector list built by `extractStylesheets`
(lines 86–88): `link[rel="stylesheet"]:not(media)` — where `media` inside
`:not(...)` is a tag-name test, so the alternative accepts any
`link[rel="stylesheet"]` — plus `link[rel="stylesheet"][media="X"]` for each
X in the union. -/
def linkMatchesQuery (extraMedia : List String) (e : Element) : Bool :=
  (e.tag == "link" && e.rel == some "stylesheet" && !(e.tag == "media")) ||
    (unionJS ["screen", "all"] extraMedia).any fun m =>
      e.tag == "link" && e.rel == some "stylesheet" && e.media == some m

/-- `extractStylesheets` (lines 81–96): hrefs of the elements matched by the
comma selector list, in document order. -/
def extractStylesheets (dom : List Element) (optMedia : List String) :
    List String :=
  (dom.filter (linkMatchesQuery optMedia)).map Element.href

/-- `filename.match(/^http/)` is truthy exactly when the name starts with
the four characters `http`. -/
def startsWithHttp (f : String) : Bool :=
  match f.data with
  | 'h' :: 't' :: 't' :: 'p' :: _ => true
  | _ => false

/-- The per-file iterator of `mapReadFiles` (lines 54–72): an `http`-prefixed
name goes to the network (`net`, returning the body or the transport error),
anything else to the filesystem, with the explicit error string when the
local file does not exist.  `join` stands for `path.join`. -/
def readOne (net : String → Except String String) (fsExists : String → Bool)
    (fsRead : String → String) (join : String → String → String)
    (cwd : String) (filename : String) : Except String String :=
  if startsWithHttp filename then net filename
  else if fsExists filename then Except.ok (fsRead filename)
  else Except.error ("Error - could not open: " ++ join cwd filename)

/-- `mapReadFiles` (lines 53–73): `async.map` over the files — results in
input order, the first error aborting the batch. -/
def mapReadFiles (net : String → Except String String)
    (fsExists : String → Bool) (fsRead : String → String)
    (join : String → String → String) (cwd : String) :
    List String → Except String (List String)
  | [] => Except.ok []
  | f :: rest =>
    match readOne net fsExists fsRead join cwd f with
    | Except.error e => Except.error e
    | Except.ok body =>
      (mapReadFiles net fsExists fsRead join cwd rest).map
        fun bodies => body :: bodies

/-- §4.3 / C1, the fail-open disjunct: the raw query raises and the query of
the normalized form raises too. -/
def domFailOpen (d : Dom) (sel : String) : Prop :=
  d sel = none ∧ ∃ t, normalizeSelector sel = some t ∧ d t = none

theorem domStep_used_iff (d : Dom) (sel : String) :
    domStep d sel = DomStep.used ↔ (domMatchesElem d sel ∨ domFailOpen d sel) := by
  unfold domStep domMatchesElem domFailOpen
  cases hq : d sel with
  | some n =>
    by_cases hn : n = 0
    · subst hn
      simp
    · simp [hn]
  | none =>
    cases hn : normalizeSelector sel with
    | none => simp [hn]
    | some temp =>
      cases hr : d temp with
      | none => simp [hn, hr]
      | some m =>
        by_cases hm : m = 0
        · subst hm
          simp [hn, hr]
        · simp [hn, hr, hm]

theorem selectorUsed_ok_iff (doms : List Dom) (sel : String) (b : Bool)
    (h : selectorUsed doms sel = Except.ok b) :
    b = true ↔ ∃ d ∈ doms, domStep d sel = DomStep.used := by
  induction doms with
  | nil =>
    simp only [selectorUsed] at h
    injection h with h
    subst h
    simp
  | cons d ds ih =>
    simp only [selectorUsed] at h
    cases hd : domStep d sel with
    | used =>
      rw [hd] at h
      injection h with h
      subst h
      exact ⟨fun _ => ⟨d, List.mem_cons_self d ds, hd⟩, fun _ => rfl⟩
    | unused =>
      rw [hd] at h
      rw [ih h]
      constructor
      · rintro ⟨d', hd', hu⟩
        exact ⟨d', List.mem_cons_of_mem d hd', hu⟩
      · rintro ⟨d', hd', hu⟩
        rcases List.mem_cons.mp hd' with h1 | h1
        · subst h1
          rw [hd] at hu
          cases hu
        · exact ⟨d', h1, hu⟩
    | thrown =>
      rw [hd] at h
      cases h

theorem selectorKeep_ok_iff (doms : List Dom) (ignore : List IgnoreEntry)
    (sel : String) (b : Bool) (h : selectorKeep doms ignore sel = Except.ok b) :
    b = true ↔
      (firstCharAt sel = true ∨ ignoreLiteralMatch ignore sel = true ∨
        ignorePatternMatch ignore sel = true ∨
        ∃ d ∈ doms, domStep d sel = DomStep.used) := by
  unfold selectorKeep at h
  by_cases h1 : firstCharAt sel = true
  · rw [if_pos h1] at h
    injection h with h
    subst h
    simp [h1]
  · rw [if_neg h1] at h
    by_cases h2 : ignoreLiteralMatch ignore sel = true
    · rw [if_pos h2] at h
      injection h with h
      subst h
      simp [h2]
    · rw [if_neg h2] at h
      by_cases h3 : ignorePatternMatch ignore sel = true
      · rw [if_pos h3] at h
        injection h with h
        subst h
        simp [h3]
      · rw [if_neg h3] at h
        rw [selectorUsed_ok_iff doms sel b h]
        simp [h1, h2, h3]

theorem filterUnusedSelectors_mem (doms : List Dom) (sels : List String)
    (ignore : List IgnoreEntry) (out : List String)
    (h : filterUnusedSelectors doms sels ignore = Except.ok out) (sel : String) :
    sel ∈ out ↔ sel ∈ sels ∧ selectorKeep doms ignore sel = Except.ok true := by
  induction sels generalizing out with
  | nil =>
    simp only [filterUnusedSelectors] at h
    injection h with h
    subst h
    simp
  | cons s rest ih =>
    simp only [filterUnusedSelectors] at h
    cases hk : selectorKeep doms ignore s with
    | error e =>
      rw [hk] at h
      cases h
    | ok kb =>
      rw [hk] at h
      cases kb with
      | true =>
        cases hr : filterUnusedSelectors doms rest ignore with
        | error e =>
          rw [hr] at h
          cases h
        | ok out' =>
          rw [hr] at h
          injection h with h
          subst h
          rw [List.mem_cons, List.mem_cons, ih out' hr]
          constructor
          · rintro (h1 | ⟨h1, h2⟩)
            · subst h1
              exact ⟨Or.inl rfl, hk⟩
            · exact ⟨Or.inr h1, h2⟩
          · rintro ⟨h1 | h1, h2⟩
            · exact Or.inl h1
            · exact Or.inr ⟨h1, h2⟩
      | false =>
        rw [ih out h, List.mem_cons]
        constructor
        · rintro ⟨h1, h2⟩
          exact ⟨Or.inr h1, h2⟩
        · rintro ⟨h1 | h1, h2⟩
          · subst h1
            rw [hk] at h2
            injection h2 with h2
            cases h2
          · exact ⟨h1, h2⟩

theorem filterUnusedSelectors_ok_elem (doms : List Dom) (sels : List String)
    (ignore : List IgnoreEntry) (out : List String)
    (h : filterUnusedSelectors doms sels ignore = Except.ok out) :
    ∀ s ∈ sels, ∃ b, selectorKeep doms ignore s = Except.ok b := by
  induction sels generalizing out with
  | nil => intro s hs; cases hs
  | cons s rest ih =>
    simp only [filterUnusedSelectors] at h
    cases hk : selectorKeep doms ignore s with
    | error e =>
      rw [hk] at h
      cases h
    | ok kb =>
      rw [hk] at h
      intro x hx
      rcases List.mem_cons.mp hx with h1 | h1
      · subst h1
        exact ⟨kb, hk⟩
      · cases kb with
        | true =>
          cases hr : filterUnusedSelectors doms rest ignore with
          | error e =>
            rw [hr] at h
            cases h
          | ok out' => exact ih out' hr x h1
        | false => exact ih out h x h1

theorem filterUnusedSelectors_of_keep (doms : List Dom) (sels : List String)
    (ignore : List IgnoreEntry)
    (h : ∀ s ∈ sels, selectorKeep doms ignore s = Except.ok true) :
    filterUnusedSelectors doms sels ignore = Except.ok sels := by
  induction sels with
  | nil => rfl
  | cons s rest ih =>
    simp only [filterUnusedSelectors]
    rw [h s (List.mem_cons_self s rest),
      ih fun x hx => h x (List.mem_cons_of_mem s hx)]
    rfl

theorem domStep_thrown_iff (d : Dom) (sel : String) :
    domStep d sel = DomStep.thrown ↔
      (d sel = none ∧ normalizeSelector sel = none) := by
  unfold domStep
  cases hq : d sel with
  | some n => by_cases hn : n = 0 <;> simp [hn]
  | none =>
    cases hn : normalizeSelector sel with
    | none => simp [hn]
    | some t =>
      cases hr : d t with
      | none => simp [hn, hr]
      | some m => by_cases hm : m = 0 <;> simp [hn, hr, hm]

theorem selectorUsed_failopen (doms : List Dom) (sel : String) (t : String)
    (d : Dom) (hd : d ∈ doms) (h1 : d sel = none)
    (h2 : normalizeSelector sel = some t) (h3 : d t = none) :
    selectorUsed doms sel = Except.ok true := by
  induction doms with
  | nil => cases hd
  | cons d' ds ih =>
    simp only [selectorUsed]
    rcases List.mem_cons.mp hd with he | he
    · have hu : domStep d' sel = DomStep.used := by
        rw [← he, domStep_used_iff]
        exact Or.inr ⟨h1, t, h2, h3⟩
      rw [hu]
    · cases hs : domStep d' sel with
      | used => rfl
      | unused => exact ih he
      | thrown =>
        rw [domStep_thrown_iff] at hs
        rw [hs.2] at h2
        cases h2

theorem selectorUsed_ok_of_normalizable (doms : List Dom) (sel : String)
    (h : normalizeSelector sel ≠ none) :
    ∃ b, selectorUsed doms sel = Except.ok b := by
  induction doms with
  | nil => exact ⟨false, rfl⟩
  | cons d ds ih =>
    simp only [selectorUsed]
    cases hs : domStep d sel with
    | used => exact ⟨true, rfl⟩
    | unused => exact ih
    | thrown =>
      rw [domStep_thrown_iff] at hs
      exact absurd hs.2 h

theorem selectorKeep_ok_of_normalizable (doms : List Dom)
    (ignore : List IgnoreEntry) (sel : String)
    (h : normalizeSelector sel ≠ none) :
    ∃ b, selectorKeep doms ignore sel = Except.ok b := by
  unfold selectorKeep
  by_cases h1 : firstCharAt sel = true
  · exact ⟨true, by rw [if_pos h1]⟩
  · rw [if_neg h1]
    by_cases h2 : ignoreLiteralMatch ignore sel = true
    · exact ⟨true, by rw [if_pos h2]⟩
    · rw [if_neg h2]
      by_cases h3 : ignorePatternMatch ignore sel = true
      · exact ⟨true, by rw [if_pos h3]⟩
      · rw [if_neg h3]
        exact selectorUsed_ok_of_normalizable doms sel h

theorem filterUnusedSelectors_ok_of_normalizable (doms : List Dom)
    (sels : List String) (ignore : List IgnoreEntry)
    (h : ∀ s ∈ sels, normalizeSelector s ≠ none) :
    ∃ out, filterUnusedSelectors doms sels ignore = Except.ok out := by
  induction sels with
  | nil => exact ⟨[], rfl⟩
  | cons s rest ih =>
    obtain ⟨b, hb⟩ := selectorKeep_ok_of_normalizable doms ignore s
      (h s (List.mem_cons_self s rest))
    obtain ⟨out, hout⟩ := ih fun x hx => h x (List.mem_cons_of_mem s hx)
    simp only [filterUnusedSelectors]
    rw [hb]
    cases b with
    | true => exact ⟨s :: out, by rw [hout]; rfl⟩
    | false => exact ⟨out, hout⟩

theorem transformRules_append (doms : List Dom) (ignore : List IgnoreEntry)
    (a b : List RuleNode) :
    transformRules doms ignore (a ++ b) =
      match transformRules doms ignore a with
      | Except.error e => Except.error e
      | Except.ok ta => (transformRules doms ignore b).map fun tb => ta ++ tb := by
  induction a with
  | nil =>
    simp only [List.nil_append, transformRules]
    cases transformRules doms ignore b with
    | error e => rfl
    | ok tb => rfl
  | cons r rest ih =>
    cases r with
    | rule sels d =>
      simp only [List.cons_append, transformRules]
      cases filterUnusedSelectors doms sels ignore with
      | error e => rfl
      | ok out =>
        rw [ih]
        cases transformRules doms ignore rest with
        | error e => rfl
        | ok ta =>
          cases transformRules doms ignore b with
          | error e => rfl
          | ok tb => rfl
    | media cond rs =>
      simp only [List.cons_append, transformRules]
      cases transformRules doms ignore rs with
      | error e => rfl
      | ok inner =>
        rw [ih]
        cases transformRules doms ignore rest with
        | error e => rfl
        | ok ta =>
          cases transformRules doms ignore b with
          | error e => rfl
          | ok tb => rfl
    | other p =>
      simp only [List.cons_append, transformRules]
      rw [ih]
      cases transformRules doms ignore rest with
      | error e => rfl
      | ok ta =>
        cases transformRules doms ignore b with
        | error e => rfl
        | ok tb => rfl

theorem transformRules_of_all_fix (doms : List Dom) (ignore : List IgnoreEntry)
    (l : List RuleNode)
    (h : ∀ t ∈ l, transformRules doms ignore [t] = Except.ok [t]) :
    transformRules doms ignore l = Except.ok l := by
  induction l with
  | nil => simp only [transformRules]
  | cons t rest ih =>
    have ha := transformRules_append doms ignore [t] rest
    rw [List.singleton_append] at ha
    rw [ha, h t (List.mem_cons_self t rest),
      ih fun x hx => h x (List.mem_cons_of_mem t hx)]
    rfl

theorem transformRules_mem_fix (doms : List Dom) (ignore : List IgnoreEntry)
    (rules : List RuleNode) :
    ∀ ts, transformRules doms ignore rules = Except.ok ts →
      ∀ t ∈ ts, transformRules doms ignore [t] = Except.ok [t] := by
  induction rules using transformRules.induct doms ignore with
  | case1 =>
    intro ts h t ht
    simp only [transformRules] at h
    injection h with h
    subst h
    cases ht
  | case2 sels d rest e hf =>
    intro ts h t ht
    simp only [transformRules] at h
    rw [hf] at h
    cases h
  | case3 sels d rest out hf ih =>
    intro ts h t ht
    simp only [transformRules] at h
    rw [hf] at h
    cases hr : transformRules doms ignore rest with
    | error e => rw [hr] at h; cases h
    | ok ts' =>
      rw [hr] at h
      injection h with h
      subst h
      rcases List.mem_cons.mp ht with he | he
      · subst he
        simp only [transformRules]
        have hkeep : ∀ s ∈ out, selectorKeep doms ignore s = Except.ok true :=
          fun s hs =>
            ((filterUnusedSelectors_mem doms sels ignore out hf s).mp hs).2
        rw [filterUnusedSelectors_of_keep doms out ignore hkeep]
        rfl
      · exact ih ts' hr t he
  | case4 cond rs rest e hi ih =>
    intro ts h t ht
    simp only [transformRules] at h
    rw [hi] at h
    cases h
  | case5 cond rs rest inner hi ih1 ih2 =>
    intro ts h t ht
    simp only [transformRules] at h
    rw [hi] at h
    cases hr : transformRules doms ignore rest with
    | error e => rw [hr] at h; cases h
    | ok ts' =>
      rw [hr] at h
      injection h with h
      subst h
      rcases List.mem_cons.mp ht with he | he
      · subst he
        simp only [transformRules]
        have hfix : ∀ x ∈ inner.filter keepNode,
            transformRules doms ignore [x] = Except.ok [x] :=
          fun x hx => ih1 inner hi x (List.mem_filter.mp hx).1
        rw [transformRules_of_all_fix doms ignore _ hfix]
        have hff : (inner.filter keepNode).filter keepNode =
            inner.filter keepNode :=
          List.filter_eq_self.mpr fun a ha => (List.mem_filter.mp ha).2
        show Except.ok
            [RuleNode.media cond ((inner.filter keepNode).filter keepNode)] =
          Except.ok [RuleNode.media cond (inner.filter keepNode)]
        rw [hff]
      · exact ih2 ts' hr t he
  | case6 p rest ih =>
    intro ts h t ht
    simp only [transformRules] at h
    cases hr : transformRules doms ignore rest with
    | error e => rw [hr] at h; cases h
    | ok ts' =>
      rw [hr] at h
      injection h with h
      subst h
      rcases List.mem_cons.mp ht with he | he
      · subst he
        simp only [transformRules]
        rfl
      · exact ih ts' hr t he

theorem transformRules_ok_of_normalizable (doms : List Dom)
    (ignore : List IgnoreEntry) (rules : List RuleNode)
    (h : ∀ s ∈ rulesSelectors rules, normalizeSelector s ≠ none) :
    ∃ ts, transformRules doms ignore rules = Except.ok ts := by
  induction rules using transformRules.induct doms ignore with
  | case1 => exact ⟨[], by simp only [transformRules]⟩
  | case2 sels d rest e hf =>
    simp only [rulesSelectors] at h
    obtain ⟨out, hout⟩ := filterUnusedSelectors_ok_of_normalizable doms sels
      ignore fun s hs => h s (List.mem_append_left _ hs)
    cases hout.symm.trans hf
  | case3 sels d rest out hf ih =>
    simp only [rulesSelectors] at h
    obtain ⟨ts, hts⟩ := ih fun s hs => h s (List.mem_append_right _ hs)
    refine ⟨RuleNode.rule out d :: ts, ?_⟩
    simp only [transformRules]
    rw [hf, hts]
    rfl
  | case4 cond rs rest e hi ih =>
    simp only [rulesSelectors] at h
    obtain ⟨inner, hinner⟩ := ih fun s hs => h s (List.mem_append_left _ hs)
    cases hinner.symm.trans hi
  | case5 cond rs rest inner hi ih1 ih2 =>
    simp only [rulesSelectors] at h
    obtain ⟨ts, hts⟩ := ih2 fun s hs => h s (List.mem_append_right _ hs)
    refine ⟨RuleNode.media cond (inner.filter keepNode) :: ts, ?_⟩
    simp only [transformRules]
    rw [hi, hts]
    rfl
  | case6 p rest ih =>
    simp only [rulesSelectors] at h
    obtain ⟨ts, hts⟩ := ih h
    refine ⟨RuleNode.other p :: ts, ?_⟩
    simp only [transformRules]
    rw [hts]
    rfl

/-- C1 (amended): whenever `filterUnusedSelectors` returns a list, a selector
is kept in it iff it was in the input and: its first character is `@`, or it
is string-equal to a literal ignore entry, or a RegExp ignore entry tests
true on it, or some DOM snapshot counts it as used — matching at least one
element directly or via the normalized form, **or hitting the fail-open path
where the normalized query raises as well** (the disjunct the original claim
is missing). -/
theorem C1_selector_survival (doms : List Dom) (ignore : List IgnoreEntry)
    (sels out : List String) (sel : String)
    (h : filterUnusedSelectors doms sels ignore = Except.ok out) :
    sel ∈ out ↔
      sel ∈ sels ∧
        (firstCharAt sel = true ∨ ignoreLiteralMatch ignore sel = true ∨
          ignorePatternMatch ignore sel = true ∨
          ∃ d ∈ doms, domMatchesElem d sel ∨ domFailOpen d sel) := by
  rw [filterUnusedSelectors_mem doms sels ignore out h sel]
  constructor
  · rintro ⟨hin, hkeep⟩
    refine ⟨hin, ?_⟩
    have hdisj := (selectorKeep_ok_iff doms ignore sel true hkeep).mp rfl
    rcases hdisj with h1 | h1 | h1 | ⟨d, hd, hu⟩
    · exact Or.inl h1
    · exact Or.inr (Or.inl h1)
    · exact Or.inr (Or.inr (Or.inl h1))
    · exact Or.inr (Or.inr (Or.inr ⟨d, hd, (domStep_used_iff d sel).mp hu⟩))
  · rintro ⟨hin, hdisj⟩
    obtain ⟨b, hb⟩ :=
      filterUnusedSelectors_ok_elem doms sels ignore out h sel hin
    have hb' : b = true := by
      rw [selectorKeep_ok_iff doms ignore sel b hb]
      rcases hdisj with h1 | h1 | h1 | ⟨d, hd, hu⟩
      · exact Or.inl h1
      · exact Or.inr (Or.inl h1)
      · exact Or.inr (Or.inr (Or.inl h1))
      · exact Or.inr (Or.inr (Or.inr ⟨d, hd, (domStep_used_iff d sel).mpr hu⟩))
    exact ⟨hin, hb' ▸ hb⟩

/-- C1, witness: the amended characterization applied to one snapshot that
has an element with class `a`, the selector `.a` and an empty ignore list. -/
theorem C1_selector_survival_witness :
    ".a" ∈ [".a"] ↔
      ".a" ∈ [".a"] ∧
        (firstCharAt ".a" = true ∨
          ignoreLiteralMatch ([] : List IgnoreEntry) ".a" = true ∨
          ignorePatternMatch ([] : List IgnoreEntry) ".a" = true ∨
          ∃ d ∈ [domHasDotA], domMatchesElem d ".a" ∨ domFailOpen d ".a") :=
  C1_selector_survival [domHasDotA] [] [".a"] [".a"] ".a" (by rfl)

/-- C1, counterexample to the claim as stated: with one snapshot whose query
throws on everything, the selector `a` is kept (fail open), yet none of the
claim's four reasons holds — in particular it matches no element in any
snapshot, directly or via its normalized form. -/
theorem C1_claim_counterexample :
    filterUnusedSelectors [domAlwaysThrow] ["a"] [] = Except.ok ["a"] ∧
      ¬ (firstCharAt "a" = true ∨
          ignoreLiteralMatch ([] : List IgnoreEntry) "a" = true ∨
          ignorePatternMatch ([] : List IgnoreEntry) "a" = true ∨
          ∃ d ∈ [domAlwaysThrow], domMatchesElem d "a") := by
  refine ⟨by rfl, ?_⟩
  rintro (h | h | h | ⟨d, hd, hm⟩)
  · exact absurd h (by decide)
  · exact absurd h (by decide)
  · exact absurd h (by decide)
  · rw [List.mem_singleton] at hd
    subst hd
    rcases hm with ⟨n, hn, _⟩ | ⟨_, t, n, _, hq, _⟩
    · simp [domAlwaysThrow] at hn
    · simp [domAlwaysThrow] at hq

/-- C2: a selector whose raw query raises on some snapshot and whose
normalized form also raises when queried against that same snapshot is kept
(the filter callback returns true), whatever the other snapshots contain. -/
theorem C2_failopen_keeps (doms : List Dom) (ignore : List IgnoreEntry)
    (sel t : String) (d : Dom) (hd : d ∈ doms) (h1 : d sel = none)
    (h2 : normalizeSelector sel = some t) (h3 : d t = none) :
    selectorKeep doms ignore sel = Except.ok true := by
  unfold selectorKeep
  by_cases k1 : firstCharAt sel = true
  · rw [if_pos k1]
  · rw [if_neg k1]
    by_cases k2 : ignoreLiteralMatch ignore sel = true
    · rw [if_pos k2]
    · rw [if_neg k2]
      by_cases k3 : ignorePatternMatch ignore sel = true
      · rw [if_pos k3]
      · rw [if_neg k3]
        exact selectorUsed_failopen doms sel t d hd h1 h2 h3

/-- C2, witness: the selector `a` against the always-throwing snapshot — its
normalized form is `a` again, both queries raise, the selector is kept. -/
theorem C2_failopen_keeps_witness :
    selectorKeep [domAlwaysThrow] ([] : List IgnoreEntry) "a" =
      Except.ok true :=
  C2_failopen_keeps [domAlwaysThrow] [] "a" "a" domAlwaysThrow
    (List.mem_singleton.mpr rfl) rfl (by rfl) rfl

/-- C3: in a successful pruning run, a media block in the rule list is
replaced by nothing exactly when its recursively pruned nested sequence is
empty, and otherwise survives carrying exactly that pruned nested sequence
with its condition string unchanged; the surrounding rules are pruned
independently. -/
theorem C3_media_pruning (doms : List Dom) (ignore : List IgnoreEntry)
    (pre post rs : List RuleNode) (cond : String)
    (inner out : List RuleNode)
    (h1 : filterUnusedRules doms ignore rs = Except.ok inner)
    (h2 : filterUnusedRules doms ignore
        (pre ++ RuleNode.media cond rs :: post) = Except.ok out) :
    ∃ opre opost, filterUnusedRules doms ignore pre = Except.ok opre ∧
      filterUnusedRules doms ignore post = Except.ok opost ∧
      out = opre ++
        (if inner.isEmpty then [] else [RuleNode.media cond inner]) ++
        opost := by
  unfold filterUnusedRules at h1 h2 ⊢
  cases hrs : transformRules doms ignore rs with
  | error e => rw [hrs] at h1; cases h1
  | ok trs =>
    rw [hrs] at h1
    injection h1 with h1
    cases ht : transformRules doms ignore
        (pre ++ RuleNode.media cond rs :: post) with
    | error e => rw [ht] at h2; cases h2
    | ok ts =>
      rw [ht] at h2
      injection h2 with h2
      have ha := transformRules_append doms ignore pre
        (RuleNode.media cond rs :: post)
      rw [ht] at ha
      cases hp : transformRules doms ignore pre with
      | error e => rw [hp] at ha; cases ha
      | ok tpre =>
        rw [hp] at ha
        cases hm : transformRules doms ignore
            (RuleNode.media cond rs :: post) with
        | error e => rw [hm] at ha; cases ha
        | ok tm =>
          rw [hm] at ha
          injection ha with ha
          simp only [transformRules] at hm
          rw [hrs] at hm
          cases hpost : transformRules doms ignore post with
          | error e => rw [hpost] at hm; cases hm
          | ok tpost =>
            rw [hpost] at hm
            injection hm with hm
            refine ⟨tpre.filter keepNode, tpost.filter keepNode,
              by rfl, by rfl, ?_⟩
            subst h2 h1 ha hm
            simp only [List.filter_append, List.filter_cons]
            by_cases hie : (trs.filter keepNode).isEmpty = true
            · have hk : keepNode
                  (RuleNode.media cond (trs.filter keepNode)) = false := by
                simp only [keepNode, hie, Bool.not_true]
              simp [hk, hie, List.append_assoc]
            · have hie' : (List.filter keepNode trs).isEmpty = false :=
                Bool.eq_false_iff.mpr hie
              have hk : keepNode
                  (RuleNode.media cond (trs.filter keepNode)) = true := by
                simp [keepNode, hie']
              simp [hk, hie', List.append_assoc]

/-- C3, witness: one media block over two rules, one DOM snapshot matching
only `.a` — the block survives with only the `.a` rule and the same
condition string. -/
theorem C3_media_pruning_witness :
    ∃ opre opost,
      filterUnusedRules [domHasDotA] ([] : List IgnoreEntry) [] =
        Except.ok opre ∧
      filterUnusedRules [domHasDotA] ([] : List IgnoreEntry) [] =
        Except.ok opost ∧
      [RuleNode.media "screen" [RuleNode.rule [".a"] 0]] =
        opre ++
          (if ([RuleNode.rule [".a"] 0] : List RuleNode).isEmpty then []
            else [RuleNode.media "screen" [RuleNode.rule [".a"] 0]]) ++
          opost :=
  C3_media_pruning [domHasDotA] [] [] []
    [RuleNode.rule [".a"] 0, RuleNode.rule [".b"] 1] "screen"
    [RuleNode.rule [".a"] 0]
    [RuleNode.media "screen" [RuleNode.rule [".a"] 0]]
    (by simp only [filterUnusedRules, transformRules]; rfl)
    (by simp only [filterUnusedRules, List.nil_append, transformRules]; rfl)

/-- C4: pruning is idempotent — feeding the result of `filterUnusedRules`
back into it with the same DOM list and ignore list reproduces that result
(the `Except.bind` form also propagates an escaping exception unchanged). -/
theorem C4_prune_idempotent (doms : List Dom) (ignore : List IgnoreEntry)
    (rules : List RuleNode) :
    Except.bind (filterUnusedRules doms ignore rules)
        (filterUnusedRules doms ignore) =
      filterUnusedRules doms ignore rules := by
  unfold filterUnusedRules
  cases ht : transformRules doms ignore rules with
  | error e => rfl
  | ok ts =>
    have hfix : ∀ t ∈ ts.filter keepNode,
        transformRules doms ignore [t] = Except.ok [t] :=
      fun t htf =>
        transformRules_mem_fix doms ignore rules ts ht t
          (List.mem_filter.mp htf).1
    have h2 : transformRules doms ignore (ts.filter keepNode) =
        Except.ok (ts.filter keepNode) :=
      transformRules_of_all_fix doms ignore _ hfix
    show (transformRules doms ignore (ts.filter keepNode)).map
        (fun l => l.filter keepNode) = Except.ok (ts.filter keepNode)
    rw [h2]
    show Except.ok ((ts.filter keepNode).filter keepNode) =
      Except.ok (ts.filter keepNode)
    rw [List.filter_eq_self.mpr fun a ha => (List.mem_filter.mp ha).2]

/-- C5, counterexample to the claim as stated: the selector `:` against a
snapshot whose query throws — the normalization expression itself throws
(the inner token match returns null and `null[0]` is a TypeError), and the
exception escapes the whole pruning traversal. -/
theorem C5_claim_counterexample :
    filterUnusedRules [domAlwaysThrow] ([] : List IgnoreEntry)
      [RuleNode.rule [":"] 0] = Except.error () := by
  simp only [filterUnusedRules, transformRules]
  rfl

/-- C5 (amended): the pruning traversal lets no exception escape provided
the normalization of every selector in the tree succeeds; the fail-open
policy covers every query failure, but a selector whose normalized form
cannot even be computed (the original claim's last case) throws. -/
theorem C5_no_exception_of_normalizable (doms : List Dom)
    (ignore : List IgnoreEntry) (rules : List RuleNode)
    (h : ∀ s ∈ rulesSelectors rules, normalizeSelector s ≠ none) :
    ∃ out, filterUnusedRules doms ignore rules = Except.ok out := by
  obtain ⟨ts, hts⟩ := transformRules_ok_of_normalizable doms ignore rules h
  exact ⟨ts.filter keepNode, by unfold filterUnusedRules; rw [hts]; rfl⟩

/-- C5, witness: a one-rule tree against the always-throwing snapshot — the
`.a` selector normalizes fine, so the traversal returns (fail open) instead
of throwing. -/
theorem C5_no_exception_of_normalizable_witness :
    ∃ out, filterUnusedRules [domAlwaysThrow] ([] : List IgnoreEntry)
      [RuleNode.rule [".a"] 0] = Except.ok out :=
  C5_no_exception_of_normalizable [domAlwaysThrow] [] [RuleNode.rule [".a"] 0]
    (by simp only [rulesSelectors]; decide)

/-- C9, counterexample to the claim as stated: the source mutates the input
tree in place (`rule.selectors = filterUnusedSelectors(...)`), so after a
call with an empty DOM list the caller's rule node no longer carries its
original selector list — the transformed state differs from the input. -/
theorem C9_claim_counterexample :
    transformRules [] [] [RuleNode.rule ["x"] 0] =
        Except.ok [RuleNode.rule [] 0] ∧
      [RuleNode.rule [] 0] ≠ [RuleNode.rule ["x"] 0] := by
  constructor
  · simp only [transformRules]
    rfl
  · simp

/-- C9 (amended): the engine is deterministic and performs no I/O — in this
embedding `filterUnusedRules` is a function of its three arguments — but it
mutates the caller's rule nodes: after a successful call the input's nodes
hold the transformed state `ts`, and the returned tree is exactly the
`keepNode`-filter of `ts`, a sublist of it. -/
theorem C9_pure_output_shape (doms : List Dom) (ignore : List IgnoreEntry)
    (rules ts : List RuleNode)
    (h : transformRules doms ignore rules = Except.ok ts) :
    filterUnusedRules doms ignore rules = Except.ok (ts.filter keepNode) ∧
      List.Sublist (ts.filter keepNode) ts :=
  ⟨by unfold filterUnusedRules; rw [h]; rfl, List.filter_sublist ts⟩

/-- C9, witness: the output-shape theorem applied to the one-rule tree whose
selector is dropped. -/
theorem C9_pure_output_shape_witness :
    filterUnusedRules [] [] [RuleNode.rule ["x"] 0] =
        Except.ok (List.filter keepNode [RuleNode.rule [] 0]) ∧
      List.Sublist (List.filter keepNode [RuleNode.rule [] 0])
        [RuleNode.rule [] 0] :=
  C9_pure_output_shape [] [] [RuleNode.rule ["x"] 0] [RuleNode.rule [] 0]
    (by simp only [transformRules]; rfl)

/-- C6, code-bug evaluation: `selector.replace(/\/\*.*?\*\//)` is called
without a replacement argument, so JavaScript substitutes the string
`"undefined"` for the first comment instead of deleting it — the normalized
output of `a/*c*/b:hover` is `aundefinedb`, not the comment-free `ab`. -/
theorem C6_comment_inserts_undefined :
    replaceComment "a/*c*/b:hover".data = "aundefinedb:hover".data ∧
      normalizeSelector "a/*c*/b:hover" = some "aundefinedb" ∧
      "aundefinedb" ≠ "ab" := by
  refine ⟨by decide, by decide, by decide⟩

/-- C8, code-bug evaluation: the selector built by `extractStylesheets`
starts with `link[rel="stylesheet"]:not(media)`, and inside `:not(...)` the
bare word `media` is a tag-name test that no `link` element ever satisfies.
Every `rel="stylesheet"` link therefore matches, so a link with
`media="print"` — which the specification says must be excluded — is
returned. -/
theorem C8_print_link_included :
    extractStylesheets
        [⟨"link", some "stylesheet", some "print", "print.css"⟩] [] =
      ["print.css"] ∧
      linkMatchesQuery []
        ⟨"link", some "stylesheet", some "print", "print.css"⟩ = true := by
  refine ⟨by decide, by decide⟩

/-- C10: `mapReadFiles` classifies a source name solely by the `/^http/`
prefix test — any name starting with `http` (the local-looking
`httpdocs/a.css` included) goes to the network whatever the filesystem
holds; any other name is read from disk when it exists and otherwise
produces the error string `Error - could not open: ` followed by the
cwd-joined path. -/
theorem C10_read_classification (net : String → Except String String)
    (fsE : String → Bool) (fsR : String → String)
    (join : String → String → String) (cwd : String) :
    (∀ f, startsWithHttp f = true →
        mapReadFiles net fsE fsR join cwd [f] =
          (net f).map fun b => [b]) ∧
      startsWithHttp "httpdocs/a.css" = true ∧
      (∀ f, startsWithHttp f = false → fsE f = false →
        mapReadFiles net fsE fsR join cwd [f] =
          Except.error ("Error - could not open: " ++ join cwd f)) ∧
      (∀ f, startsWithHttp f = false → fsE f = true →
        mapReadFiles net fsE fsR join cwd [f] = Except.ok [fsR f]) := by
  refine ⟨?_, by decide, ?_, ?_⟩
  · intro f hf
    simp only [mapReadFiles, readOne, hf, if_true]
    cases net f with
    | error e => rfl
    | ok body => rfl
  · intro f hf hfe
    simp only [mapReadFiles, readOne, hf, hfe]
    rfl
  · intro f hf hfe
    simp only [mapReadFiles, readOne, hf, hfe]
    rfl

/-- C10, witness: a plain local name that does not exist yields exactly the
`could not open` error with the joined path. -/
theorem C10_read_classification_witness :
    mapReadFiles (fun _ => Except.ok "BODY") (fun _ => false) (fun _ => "")
        (fun c f => c ++ "/" ++ f) "/w" ["a.css"] =
      Except.error ("Error - could not open: " ++ ("/w" ++ "/" ++ "a.css")) :=
  (C10_read_classification (fun _ => Except.ok "BODY") (fun _ => false)
      (fun _ => "") (fun c f => c ++ "/" ++ f) "/w").2.2.1 "a.css"
    (by decide) rfl

theorem scanQuoted_length :
    ∀ (cs q rest : List Char), scanQuoted cs = some (q, rest) →
      rest.length < cs.length := by
  intro cs
  induction cs with
  | nil => intro q rest h; cases h
  | cons c cs' ih =>
    intro q rest h
    simp only [scanQuoted] at h
    by_cases hc : c = '"'
    · rw [if_pos hc] at h
      injection h with h
      rw [Prod.mk.injEq] at h
      rw [← h.2, List.length_cons]
      exact Nat.lt_succ_self _
    · rw [if_neg hc] at h
      cases hs : scanQuoted cs' with
      | none => rw [hs] at h; cases h
      | some p =>
        obtain ⟨q', rest'⟩ := p
        rw [hs] at h
        injection h with h
        rw [Prod.mk.injEq] at h
        rw [← h.2, List.length_cons]
        exact Nat.lt_succ_of_lt (ih q' rest' hs)

theorem grabRun_length (bad : Char → Bool) :
    ∀ cs : List Char, (grabRun bad cs).2.length ≤ cs.length := by
  intro cs
  induction cs with
  | nil => simp [grabRun]
  | cons c cs' ih =>
    simp only [grabRun]
    by_cases hc : (bad c || c = '"') = true
    · rw [if_pos hc]
    · rw [if_neg hc]
      exact Nat.le_succ_of_le ih

theorem matchUnit_length (bad : Char → Bool) :
    ∀ (l u rest : List Char), matchUnit bad l = some (u, rest) →
      rest.length < l.length := by
  intro l u rest h
  cases l with
  | nil => cases h
  | cons c cs =>
    simp only [matchUnit] at h
    by_cases hc : c = '"'
    · rw [if_pos hc] at h
      cases hs : scanQuoted cs with
      | none => rw [hs] at h; cases h
      | some p =>
        obtain ⟨q', rest'⟩ := p
        rw [hs] at h
        injection h with h
        rw [Prod.mk.injEq] at h
        rw [← h.2, List.length_cons]
        exact Nat.lt_succ_of_lt (scanQuoted_length cs q' rest' hs)
    · rw [if_neg hc] at h
      by_cases hb : bad c = true
      · rw [if_pos hb] at h; cases h
      · rw [if_neg hb] at h
        injection h with h
        rw [Prod.mk.injEq] at h
        rw [← h.2, List.length_cons]
        exact Nat.lt_succ_of_le (grabRun_length bad cs)

theorem unitsStarF_mono (bad : Char → Bool) :
    ∀ (n m : Nat) (l : List Char), l.length ≤ n → l.length ≤ m →
      unitsStarF bad n l = unitsStarF bad m l := by
  intro n
  induction n with
  | zero =>
    intro m l hn _
    have hl : l = [] := List.eq_nil_of_length_eq_zero (Nat.le_zero.mp hn)
    subst hl
    cases m with
    | zero => rfl
    | succ m' => simp [unitsStarF, matchUnit]
  | succ n' ih =>
    intro m l hn hm
    cases l with
    | nil =>
      cases m with
      | zero => simp [unitsStarF, matchUnit]
      | succ m' => simp [unitsStarF, matchUnit]
    | cons c cs =>
      cases m with
      | zero => cases hm
      | succ m' =>
        simp only [unitsStarF]
        cases hu : matchUnit bad (c :: cs) with
        | none => rfl
        | some p =>
          obtain ⟨u, rest⟩ := p
          have hlt := matchUnit_length bad (c :: cs) u rest hu
          rw [List.length_cons] at hn hm
          have h1 : rest.length ≤ n' := Nat.lt_succ_iff.mp
            (Nat.lt_of_lt_of_le hlt hn)
          have h2 : rest.length ≤ m' := Nat.lt_succ_iff.mp
            (Nat.lt_of_lt_of_le hlt hm)
          dsimp only
          rw [ih m' rest h1 h2]

theorem tokenWF_quoted :
    ∀ cs : List Char, tokenWFSt true cs = true →
      ∃ q rest, scanQuoted cs = some (q, rest) ∧
        truncSpecSt true cs = q ++ truncSpecSt false rest ∧
        tokenWFSt false rest = true := by
  intro cs
  induction cs with
  | nil => intro h; simp [tokenWFSt] at h
  | cons c cs' ih =>
    intro h
    by_cases hc : c = '"'
    · subst hc
      refine ⟨['"'], cs', ?_, ?_, ?_⟩
      · simp [scanQuoted]
      · simp [truncSpecSt]
      · simpa [tokenWFSt] using h
    · have h' : tokenWFSt true cs' = true := by simpa [tokenWFSt, hc] using h
      obtain ⟨q, rest, hsq, htr, hwf⟩ := ih h'
      refine ⟨c :: q, rest, ?_, ?_, hwf⟩
      · simp [scanQuoted, hc, hsq]
      · simp [truncSpecSt, hc, htr]

theorem unitsStar_eq_truncSpec :
    ∀ (N : Nat) (t : List Char), t.length ≤ N → tokenWFSt false t = true →
      (unitsStarF innerBad t.length t).1 = truncSpecSt false t := by
  intro N
  induction N with
  | zero =>
    intro t ht _
    have hnil : t = [] := List.eq_nil_of_length_eq_zero (Nat.le_zero.mp ht)
    subst hnil
    rfl
  | succ N' ih =>
    intro t ht hwf
    cases t with
    | nil => rfl
    | cons c cs =>
      rw [List.length_cons] at ht ⊢
      by_cases hc : c = ':'
      · subst hc
        have hmu : matchUnit innerBad (':' :: cs) = none := rfl
        simp [unitsStarF, hmu, truncSpecSt]
      · by_cases hsp : c = ' '
        · subst hsp
          simp [tokenWFSt] at hwf
        · by_cases hq : c = '"'
          · subst hq
            have hwf' : tokenWFSt true cs = true := by
              simpa [tokenWFSt] using hwf
            obtain ⟨q, rest, hsq, htr, hwfr⟩ := tokenWF_quoted cs hwf'
            have hmu : matchUnit innerBad ('"' :: cs) =
                some ('"' :: q, rest) := by
              simp [matchUnit, hsq]
            have hrl : rest.length < cs.length :=
              scanQuoted_length cs q rest hsq
            simp only [unitsStarF, hmu]
            rw [unitsStarF_mono innerBad cs.length rest.length rest
              (le_of_lt hrl) (le_refl _)]
            have hcsN : cs.length ≤ N' := Nat.le_of_succ_le_succ ht
            rw [ih rest (le_trans (le_of_lt hrl) hcsN) hwfr]
            simp [truncSpecSt, htr]
          · have hwf' : tokenWFSt false cs = true := by
              simpa [tokenWFSt, hsp, hq] using hwf
            have hbad : innerBad c = false := by
              simp [innerBad, hsp, hc]
            have hmu : matchUnit innerBad (c :: cs) =
                some (c :: (grabRun innerBad cs).1,
                  (grabRun innerBad cs).2) := by
              simp [matchUnit, hq, hbad]
            simp only [unitsStarF, hmu]
            rw [unitsStarF_mono innerBad cs.length
              (grabRun innerBad cs).2.length (grabRun innerBad cs).2
              (grabRun_length innerBad cs) (le_refl _)]
            have hcsN : cs.length ≤ N' := Nat.le_of_succ_le_succ ht
            have aux : ∀ cs' : List Char, cs'.length ≤ N' →
                tokenWFSt false cs' = true →
                (grabRun innerBad cs').1 ++
                    (unitsStarF innerBad (grabRun innerBad cs').2.length
                      (grabRun innerBad cs').2).1 =
                  truncSpecSt false cs' := by
              intro cs'
              induction cs' with
              | nil => intro _ _; rfl
              | cons a as iha =>
                intro hlen hw
                rw [List.length_cons] at hlen
                by_cases ha1 : a = ':'
                · subst ha1
                  have hg : grabRun innerBad (':' :: as) =
                      ([], ':' :: as) := rfl
                  have hmu2 : matchUnit innerBad (':' :: as) = none := rfl
                  rw [hg]
                  simp [unitsStarF, hmu2, truncSpecSt]
                · by_cases ha2 : a = ' '
                  · subst ha2
                    simp [tokenWFSt] at hw
                  · by_cases ha3 : a = '"'
                    · subst ha3
                      have hg : grabRun innerBad ('"' :: as) =
                          ([], '"' :: as) := rfl
                      rw [hg]
                      simp only [List.nil_append]
                      exact ih ('"' :: as)
                        (by rw [List.length_cons]; exact hlen) hw
                    · have hbada : innerBad a = false := by
                        simp [innerBad, ha1, ha2]
                      have hg : grabRun innerBad (a :: as) =
                          (a :: (grabRun innerBad as).1,
                            (grabRun innerBad as).2) := by
                        simp [grabRun, hbada, ha3]
                      rw [hg]
                      dsimp only
                      have hw' : tokenWFSt false as = true := by
                        simpa [tokenWFSt, ha2, ha3] using hw
                      rw [List.cons_append,
                        iha (Nat.le_of_succ_le hlen) hw']
                      simp [truncSpecSt, ha1, ha3]
            rw [List.cons_append, aux cs hcsN hwf']
            simp [truncSpecSt, hc, hq]

/-- C7, counterexample to the claim as stated: the token `:hover` does not
truncate to the empty prefix before its leading colon — the first match of
`/(?:[^ :"]+|"[^"]*")+/g` skips the unmatchable colon and returns `hover`. -/
theorem C7_claim_counterexample :
    tokenTrunc ":hover".data = some "hover".data ∧
      ("hover".data : List Char) ≠ [] := by
  refine ⟨by decide, by decide⟩

/-- C7 (amended): for a well-formed token (balanced double quotes, no
unquoted space) that does not begin with a colon, the per-token step
`str.match(/(?:[^ :\x22]+|\x22[^\x22]*\x22)+/g)[0]` truncates the token at
its first colon not inside a double-quoted substring; a token beginning
with a colon instead has the leading colon(s) skipped and yields the
following run, so `:hover` maps to `hover`, not the empty prefix. -/
theorem C7_token_truncation :
    (∀ t : List Char, tokenWFSt false t = true → t ≠ [] →
        t.head? ≠ some ':' → tokenTrunc t = some (truncSpecSt false t)) ∧
      tokenTrunc ":hover".data = some "hover".data := by
  constructor
  · intro t hwf hne hcolon
    cases t with
    | nil => exact absurd rfl hne
    | cons c cs =>
      have hc : c ≠ ':' := by
        intro h
        subst h
        exact hcolon rfl
      unfold tokenTrunc
      rw [List.length_cons]
      by_cases hsp : c = ' '
      · subst hsp
        simp [tokenWFSt] at hwf
      · by_cases hq : c = '"'
        · subst hq
          have hwf' : tokenWFSt true cs = true := by
            simpa [tokenWFSt] using hwf
          obtain ⟨q, rest, hsq, htr, hwfr⟩ := tokenWF_quoted cs hwf'
          have hmu : matchUnit innerBad ('"' :: cs) =
              some ('"' :: q, rest) := by
            simp [matchUnit, hsq]
          simp only [allMatchesF, hmu, List.head?_cons]
          have hP := unitsStar_eq_truncSpec ('"' :: cs).length ('"' :: cs)
            (le_refl _) hwf
          rw [List.length_cons] at hP
          simp only [unitsStarF, hmu] at hP
          rw [hP]
        · have hbad : innerBad c = false := by
            simp [innerBad, hsp, hc]
          have hmu : matchUnit innerBad (c :: cs) =
              some (c :: (grabRun innerBad cs).1,
                (grabRun innerBad cs).2) := by
            simp [matchUnit, hq, hbad]
          simp only [allMatchesF, hmu, List.head?_cons]
          have hP := unitsStar_eq_truncSpec (c :: cs).length (c :: cs)
            (le_refl _) hwf
          rw [List.length_cons] at hP
          simp only [unitsStarF, hmu] at hP
          rw [hP]
  · decide

/-- C7, witness: the truncation characterization applied to the token
`a:b`, whose unquoted colon cuts it down to `a`. -/
theorem C7_token_truncation_witness :
    tokenTrunc "a:b".data = some (truncSpecSt false "a:b".data) :=
  C7_token_truncation.1 "a:b".data (by decide) (by decide) (by decide)
